import Mathlib

/-!
Shallow embedding of the `kvstore` storage engine (`src/lib.rs`).

The filesystem tree under the store root is modelled two levels deep, exactly
as deep as the code ever looks: the root directory is a list of entries, each
entry either a plain file or a subdirectory holding a list of files.  Strings
model both names and file contents; the content hash (`sha256::digest`) and
serde's serialization are the external collaborators the spec names, so the
operations take the hash string (and a deserializer) as parameters.  Rust
byte-slicing and `str` operations are modelled on `String.data` character
lists (all names involved are ASCII).
-/

namespace KV

/-- A file inside a shard subdirectory: its name and its contents. -/
structure FileEnt where
  name : String
  content : String
deriving DecidableEq, Repr

/-- An immediate child of the store root: a plain file, or a subdirectory
(shard) holding files. -/
inductive RootEntry where
  | file (name : String) (content : String)
  | dir (name : String) (files : List FileEnt)
deriving DecidableEq, Repr

/-- The name of a root entry (`DirEntry::file_name`). -/
def entryName : RootEntry → String
  | .file n _ => n
  | .dir n _ => n

/-- The in-memory store handle (`struct KVStore { size, path }`). -/
structure KVStore where
  size : Nat
  path : String
deriving DecidableEq, Repr

/-- Error kinds surfaced through `std::io::Result` by the code. -/
inductive ErrKind where
  | alreadyExists
  | notFound
  | ioError
  | deserError
deriving DecidableEq, Repr

/-- Result of one operation: success, an error returned in the `Result`
(carrying the filesystem as it stands at the error return), or a process
abort (`.expect(..)` panic). -/
inductive Outcome (α : Type) where
  | ok (a : α)
  | err (k : ErrKind) (fs : List RootEntry)
  | aborted
deriving DecidableEq, Repr

/-- Observable filesystem mutations/reads, in program order. -/
inductive FsAction where
  | createDir (dname : String)
  | writeFile (dname fname : String)
  | readFile (dname fname : String)
  | delFile (dname fname : String)
  | delDir (dname : String)
deriving DecidableEq, Repr

/-- Rust `&hashed[0..10]`: the first ten characters (bytes; all ASCII here). -/
def first10 (s : String) : String :=
  String.mk (s.data.take 10)

/-- `combine_string(&hashed_key, ".key")`. -/
def keyFileName (hashed : String) : String := hashed ++ ".key"

/-- `combine_string(&hashed_key, ".value")`. -/
def valueFileName (hashed : String) : String := hashed ++ ".value"

/-- The guard `insert` uses on a root entry name:
`subdirectory_name.len() == 10 && first_ten_key == subdir_ten_key`. -/
def insertShardMatch (hashed name : String) : Bool :=
  name.data.length == 10 && first10 name == first10 hashed

/-- The guard `lookup`/`remove` use on a root entry name: entries shorter
than 10 are skipped (`continue`), then the first ten characters are
compared. -/
def lookupShardMatch (hashed name : String) : Bool :=
  !(name.data.length < 10) && first10 name == first10 hashed

/-- Result of insert's scan over the root directory. -/
inductive InsScan where
  /-- a matching shard already holds the key-record: duplicate key. -/
  | dup
  /-- a matching root entry was found (`directory_exists = true; break`). -/
  | found
  /-- the loop finished without a match (`directory_exists = false`). -/
  | absent
deriving DecidableEq, Repr

/-- The root-directory loop of `KVStore::insert` (lib.rs lines 182-210):
stop at the first entry whose name has length 10 and matches the hash's
first ten characters; if that entry is a directory containing the
key-record, fail with AlreadyExists. -/
def insertScan (hashed : String) : List RootEntry → InsScan
  | [] => .absent
  | e :: rest =>
    if insertShardMatch hashed (entryName e) then
      match e with
      | .dir _ files =>
        if files.any (fun f => decide (f.name = keyFileName hashed)) then .dup else .found
      | .file _ _ => .found
    else insertScan hashed rest

/-- `fs::create_dir(&desired_subdirectory_path)`: fails if any root entry
already bears that name, else appends an empty directory. -/
def fsCreateDir (dname : String) (fs : List RootEntry) : Option (List RootEntry) :=
  if fs.any (fun e => decide (entryName e = dname)) then none
  else some (fs ++ [.dir dname []])

/-- Create-or-truncate a file named `fname` in a file list (`fs::write`
semantics inside an existing directory). -/
def writeFileIn (files : List FileEnt) (fname content : String) : List FileEnt :=
  if files.any (fun f => decide (f.name = fname)) then
    files.map (fun f => if f.name = fname then ⟨fname, content⟩ else f)
  else files ++ [⟨fname, content⟩]

/-- `fs::write(dname/fname, content)` at the root: succeeds only when a
directory named `dname` exists at the root (writing through a plain file,
or into an absent directory, is an OS error). -/
def fsWrite (dname fname content : String) (fs : List RootEntry) :
    Option (List RootEntry) :=
  if fs.any (fun e => match e with | .dir n _ => decide (n = dname) | .file _ _ => false) then
    some (fs.map (fun e => match e with
      | .dir n files => if n = dname then .dir n (writeFileIn files fname content) else .dir n files
      | .file n c => .file n c))
  else none

/-- `KVStore::insert` (lib.rs lines 170-220) over the root listing.
After the scan: create the shard if no root entry matched, then write the
key-record and the value-record.  The two `fs::write(..).expect(..)` calls
abort the process on an OS write failure instead of returning the error. -/
def insertCore (hashed serKey serVal : String) (fs : List RootEntry) :
    Outcome (List RootEntry) × List FsAction :=
  match insertScan hashed fs with
  | .dup => (.err .alreadyExists fs, [])
  | scanRes =>
    let shard := first10 hashed
    let created : Option (List RootEntry × List FsAction) :=
      if scanRes = InsScan.absent then
        match fsCreateDir shard fs with
        | none => none
        | some fs1 => some (fs1, [.createDir shard])
      else some (fs, [])
    match created with
    | none => (.err .ioError fs, [])
    | some (fs1, acts1) =>
      match fsWrite shard (keyFileName hashed) serKey fs1 with
      | none => (.aborted, acts1)
      | some fs2 =>
        match fsWrite shard (valueFileName hashed) serVal fs2 with
        | none => (.aborted, acts1 ++ [.writeFile shard (keyFileName hashed)])
        | some fs3 =>
          (.ok fs3, acts1 ++ [.writeFile shard (keyFileName hashed),
                              .writeFile shard (valueFileName hashed)])

/-- Rebuild the skipped root entry in front of a lookup result's
error-state filesystem. -/
def consLook (e : RootEntry) : Outcome String → Outcome String
  | .ok c => .ok c
  | .err k fs => .err k (e :: fs)
  | .aborted => .aborted

/-- `KVStore::lookup` (lib.rs lines 222-272) over the root listing, returning
the raw contents of the value-record.  Entries with names shorter than 10
are skipped; a matching entry that is not a directory is also skipped (the
loop just continues); a matching directory without the value-record makes
lookup return NotFound at once. -/
def lookupCore (hashed : String) : List RootEntry → Outcome String
  | [] => .err .notFound []
  | e :: rest =>
    if lookupShardMatch hashed (entryName e) then
      match e with
      | .dir dname files =>
        match files.find? (fun f => decide (f.name = valueFileName hashed)) with
        | some f => .ok f.content
        | none => .err .notFound (.dir dname files :: rest)
      | .file n c => consLook (.file n c) (lookupCore hashed rest)
    else consLook e (lookupCore hashed rest)

/-- Rebuild the skipped root entry in front of a remove result. -/
def consRem {V : Type} (e : RootEntry) :
    Outcome (V × List RootEntry) × List FsAction → Outcome (V × List RootEntry) × List FsAction
  | (.ok (v, fs), acts) => (.ok (v, e :: fs), acts)
  | (.err k fs, acts) => (.err k (e :: fs), acts)
  | (.aborted, acts) => (.aborted, acts)

/-- The body of `KVStore::remove` once the value-record has been found in
the matched shard (lib.rs lines 303-329): delete the key-record if present,
then read and deserialize the value-record, then delete it, then prune the
shard directory if it is now empty.  `dname` is the shard's name, `files`
its listing, `rest` the remaining root entries after the shard. -/
def removeInShard {V : Type} (deserV : String → Option V) (hashed dname : String)
    (files : List FileEnt) (rest : List RootEntry) :
    Outcome (V × List RootEntry) × List FsAction :=
  let hasKey := files.any (fun f => decide (f.name = keyFileName hashed))
  let files1 := if hasKey then files.filter (fun f => !decide (f.name = keyFileName hashed))
                else files
  let acts0 : List FsAction := if hasKey then [.delFile dname (keyFileName hashed)] else []
  match files1.find? (fun f => decide (f.name = valueFileName hashed)) with
  | none => (.err .ioError (.dir dname files1 :: rest), acts0)
  | some fv =>
    match deserV fv.content with
    | none => (.err .deserError (.dir dname files1 :: rest),
               acts0 ++ [.readFile dname (valueFileName hashed)])
    | some v =>
      let files2 := files1.filter (fun f => !decide (f.name = valueFileName hashed))
      if files2.isEmpty then
        (.ok (v, rest), acts0 ++ [.readFile dname (valueFileName hashed),
                                  .delFile dname (valueFileName hashed), .delDir dname])
      else
        (.ok (v, .dir dname files2 :: rest),
         acts0 ++ [.readFile dname (valueFileName hashed),
                   .delFile dname (valueFileName hashed)])

/-- `KVStore::remove` (lib.rs lines 274-340) over the root listing: same
matching as lookup; presence is decided by the value-record.  A matching
directory without the value-record makes remove return NotFound at once. -/
def removeCore {V : Type} (deserV : String → Option V) (hashed : String) :
    List RootEntry → Outcome (V × List RootEntry) × List FsAction
  | [] => (.err .notFound [], [])
  | e :: rest =>
    if lookupShardMatch hashed (entryName e) then
      match e with
      | .dir dname files =>
        if files.any (fun f => decide (f.name = valueFileName hashed)) then
          removeInShard deserV hashed dname files rest
        else (.err .notFound (.dir dname files :: rest), [])
      | .file n c => consRem (.file n c) (removeCore deserV hashed rest)
    else consRem e (removeCore deserV hashed rest)

/-- Path normalization in `KVStore::new`: append a `/` unless the last
character already is one. -/
def sanitize (path : String) : String :=
  if path.data.getLast? = some '/' then path else path ++ "/"

/-- Rust `Path::join` for the paths the code builds: insert a separator
unless one is already trailing. -/
def joinPath (a b : String) : String :=
  if a.data.getLast? = some '/' then a ++ b else a ++ "/" ++ b

/-- Does `pat` occur at the head of `s`? -/
def startsWithChars : List Char → List Char → Bool
  | [], _ => true
  | _ :: _, [] => false
  | p :: ps, c :: cs => p == c && startsWithChars ps cs

/-- Rust `str::contains`: does `pat` occur anywhere in `s`? -/
def containsChars (pat : List Char) : List Char → Bool
  | [] => pat.isEmpty
  | c :: cs => startsWithChars pat (c :: cs) || containsChars pat cs

/-- The recovery count of `KVStore::new` (lib.rs lines 134-155): for every
root entry that is a directory, count the files whose full path — root path
joined with the directory name and the file name — contains `".key"` as a
substring (`filename2.contains(".key")`). -/
def countKeyFiles (path : String) : List RootEntry → Nat
  | [] => 0
  | .file _ _ :: rest => countKeyFiles path rest
  | .dir dname files :: rest =>
      (files.filter (fun f =>
        containsChars ".key".data (joinPath (joinPath path dname) f.name).data)).length
        + countKeyFiles path rest

/-- `KVStore::new` (lib.rs lines 112-164), with the directory contents after
`create_dir_all` given as `fs` (empty when the path was fresh). -/
def kvNew (path : String) (fs : List RootEntry) : KVStore :=
  if fs.isEmpty then ⟨0, sanitize path⟩
  else ⟨countKeyFiles path fs, sanitize path⟩

/-- `KVStore::size`. -/
def kvSize (st : KVStore) : Nat := st.size

/-- `insert` at the handle level: the handle's fields are never assigned by
the Rust body, so the returned handle is the argument itself. -/
def kvInsert (st : KVStore) (fs : List RootEntry) (hashed serKey serVal : String) :
    KVStore × Outcome (List RootEntry) × List FsAction :=
  (st, insertCore hashed serKey serVal fs)

/-- `lookup` at the handle level: deserialization (`serde_json::from_str`)
is applied to the raw value-record contents. -/
def kvLookup {V : Type} (deserV : String → Option V) (st : KVStore)
    (fs : List RootEntry) (hashed : String) : Outcome V :=
  match lookupCore hashed fs with
  | .ok c =>
    match deserV c with
    | some v => .ok v
    | none => .err .deserError fs
  | .err k fs' => .err k fs'
  | .aborted => .aborted

/-- `remove` at the handle level: the handle's fields are never assigned by
the Rust body, so the returned handle is the argument itself. -/
def kvRemove {V : Type} (deserV : String → Option V) (st : KVStore)
    (fs : List RootEntry) (hashed : String) :
    KVStore × Outcome (V × List RootEntry) × List FsAction :=
  (st, removeCore deserV hashed fs)

/-- Spec-side count ("Modelled from the spec's words", for the refinement
comparison of the recovery walk): the number of files, inside immediate
subdirectories of the root, whose *name ends in* the key-record suffix
`.key`. -/
def specCountKeyRecords : List RootEntry → Nat
  | [] => 0
  | .file _ _ :: rest => specCountKeyRecords rest
  | .dir _ files :: rest =>
      (files.filter (fun f =>
        decide (f.name.data.drop (f.name.data.length - 4) = ".key".data))).length
        + specCountKeyRecords rest

/-- No directory in the root listing is empty. -/
def noEmptyDirs (fs : List RootEntry) : Bool :=
  fs.all (fun e => match e with
    | RootEntry.dir _ files => !files.isEmpty
    | RootEntry.file _ _ => true)

/-- Store-generated root listings: every entry is a shard directory whose
name is exactly ten characters, and names are unique (as they are in a real
directory). -/
structure StoreWF (fs : List RootEntry) : Prop where
  shape : ∀ e ∈ fs, ∃ n files, e = RootEntry.dir n files ∧ n.data.length = 10
  nodup : (fs.map entryName).Nodup

/-- Fold of `consLook` along a skipped prefix of root entries. -/
def consLookAll (pre : List RootEntry) (o : Outcome String) : Outcome String :=
  pre.foldr consLook o

/-- Fold of `consRem` along a skipped prefix of root entries. -/
def consRemAll {V : Type} (pre : List RootEntry)
    (o : Outcome (V × List RootEntry) × List FsAction) :
    Outcome (V × List RootEntry) × List FsAction :=
  pre.foldr consRem o

/-- A concrete 64-character digest standing in for a SHA-256 hex digest. -/
def hashA : String := String.mk (List.replicate 64 'a')

end KV

namespace KV

/-! ### Basic facts about the layout scheme -/

theorem data_injective {s t : String} (h : s.data = t.data) : s = t :=
  congrArg String.mk h

theorem hashA_length : hashA.data.length = 64 := by decide

theorem first10_data (s : String) : (first10 s).data = s.data.take 10 := rfl

theorem first10_length (s : String) : (first10 s).data.length = min 10 s.data.length := by
  simp [first10_data]

theorem first10_eq_self {s : String} (h : s.data.length = 10) : first10 s = s := by
  apply data_injective
  rw [first10_data]
  exact List.take_of_length_le (by omega)

theorem first10_idem (s : String) : first10 (first10 s) = first10 s := by
  apply data_injective
  simp [first10_data, List.take_take]

theorem keyFileName_ne_valueFileName (h : String) : keyFileName h ≠ valueFileName h := by
  intro he
  have : (keyFileName h).data = (valueFileName h).data := congrArg String.data he
  simp only [keyFileName, valueFileName, String.data_append] at this
  have := List.append_cancel_left this
  simp at this

/-- Characterization of insert's shard guard: with a full-length hash, a
root entry matches iff its name is exactly the hash's first ten
characters. -/
theorem insertShardMatch_iff {hashed name : String} (h : 10 ≤ hashed.data.length) :
    insertShardMatch hashed name = true ↔ name = first10 hashed := by
  unfold insertShardMatch
  simp only [Bool.and_eq_true, beq_iff_eq]
  constructor
  · rintro ⟨h10, heq⟩
    rw [← first10_eq_self h10, heq]
  · rintro rfl
    refine ⟨?_, first10_idem hashed⟩
    rw [first10_length]
    omega

/-- Characterization of lookup/remove's shard guard: a root entry matches
iff its name is at least ten characters long and its first ten characters
agree with the hash's. -/
theorem lookupShardMatch_iff {hashed name : String} :
    lookupShardMatch hashed name = true ↔
      10 ≤ name.data.length ∧ first10 name = first10 hashed := by
  unfold lookupShardMatch
  simp [Nat.not_lt]

/-- On names of length exactly 10 — the only names the store itself
creates — the two guards agree. -/
theorem shardMatch_bridge {hashed n : String} (hn : n.data.length = 10) :
    lookupShardMatch hashed n = insertShardMatch hashed n := by
  unfold lookupShardMatch insertShardMatch
  simp [hn]

end KV

namespace KV

/-! ### Traversal lemmas for the root-directory loops -/

theorem StoreWF.tail {e : RootEntry} {fs : List RootEntry} (h : StoreWF (e :: fs)) :
    StoreWF fs := by
  refine ⟨fun x hx => h.shape x (List.mem_cons_of_mem e hx), ?_⟩
  have hn := h.nodup
  rw [List.map_cons, List.nodup_cons] at hn
  exact hn.2

theorem nodup_decomp_names {pre post : List RootEntry} {d : RootEntry}
    (h : ((pre ++ d :: post).map entryName).Nodup) :
    (∀ e ∈ pre, entryName e ≠ entryName d) ∧ (∀ e ∈ post, entryName e ≠ entryName d) := by
  rw [List.map_append, List.map_cons, List.nodup_append] at h
  obtain ⟨_, h2, hdisj⟩ := h
  refine ⟨fun e he heq => ?_, fun e he heq => ?_⟩
  · exact hdisj (List.mem_map_of_mem _ he) (by simp [heq])
  · exact (List.nodup_cons.mp h2).1 (heq ▸ List.mem_map_of_mem _ he)

theorem insertScan_cons_skip {hashed : String} {e : RootEntry} {rest : List RootEntry}
    (h : insertShardMatch hashed (entryName e) = false) :
    insertScan hashed (e :: rest) = insertScan hashed rest := by
  simp [insertScan, h]

theorem insertScan_append_skip {hashed : String} {pre rest : List RootEntry}
    (h : ∀ e ∈ pre, insertShardMatch hashed (entryName e) = false) :
    insertScan hashed (pre ++ rest) = insertScan hashed rest := by
  induction pre with
  | nil => rfl
  | cons e pre ih =>
    rw [List.cons_append, insertScan_cons_skip (h e (List.mem_cons_self e pre))]
    exact ih fun x hx => h x (List.mem_cons_of_mem e hx)

theorem insertScan_absent_all {hashed : String} {fs : List RootEntry}
    (h : insertScan hashed fs = .absent) :
    ∀ e ∈ fs, insertShardMatch hashed (entryName e) = false := by
  induction fs with
  | nil => simp
  | cons e rest ih =>
    intro x hx
    by_cases hm : insertShardMatch hashed (entryName e) = true
    · exfalso
      cases e with
      | file n c => simp [insertScan, hm] at h
      | dir n files =>
        rw [show entryName (RootEntry.dir n files) = n from rfl] at hm
        by_cases hk : files.any (fun f => decide (f.name = keyFileName hashed)) = true
        · simp [insertScan, entryName, hm, hk] at h
        · simp [insertScan, entryName, hm, Bool.eq_false_iff.mpr hk] at h
    · have hm' : insertShardMatch hashed (entryName e) = false := Bool.eq_false_iff.mpr hm
      rcases List.mem_cons.mp hx with rfl | hx'
      · exact hm'
      · exact ih (by rwa [insertScan_cons_skip hm'] at h) x hx'

theorem insertScan_found_decomp {hashed : String} {fs : List RootEntry}
    (hwf : StoreWF fs) (h : insertScan hashed fs = .found) :
    ∃ pre files post, fs = pre ++ RootEntry.dir (first10 hashed) files :: post ∧
      (∀ e ∈ pre, insertShardMatch hashed (entryName e) = false) ∧
      (∀ f ∈ files, f.name ≠ keyFileName hashed) ∧
      10 ≤ hashed.data.length := by
  induction fs with
  | nil => simp [insertScan] at h
  | cons e rest ih =>
    by_cases hm : insertShardMatch hashed (entryName e) = true
    · obtain ⟨n, files, rfl, hlen⟩ := hwf.shape e (List.mem_cons_self e rest)
      rw [show entryName (RootEntry.dir n files) = n from rfl] at hm
      unfold insertShardMatch at hm
      rw [Bool.and_eq_true, beq_iff_eq, beq_iff_eq] at hm
      obtain ⟨-, hpre⟩ := hm
      have hname : n = first10 hashed := by rw [← first10_eq_self hlen, hpre]
      have hhlen : 10 ≤ hashed.data.length := by
        have : (first10 hashed).data.length = 10 := by rw [← hname]; exact hlen
        rw [first10_length] at this
        omega
      have hm' : insertShardMatch hashed n = true := by
        unfold insertShardMatch
        rw [Bool.and_eq_true, beq_iff_eq, beq_iff_eq]
        exact ⟨hlen, hpre⟩
      by_cases hk : files.any (fun f => decide (f.name = keyFileName hashed)) = true
      · exfalso
        simp [insertScan, entryName, hm', hk] at h
      · refine ⟨[], files, rest, by rw [hname]; rfl, by simp, ?_, hhlen⟩
        intro f hf heq
        exact hk (List.any_eq_true.mpr ⟨f, hf, by simp [heq]⟩)
    · have hm' : insertShardMatch hashed (entryName e) = false := Bool.eq_false_iff.mpr hm
      rw [insertScan_cons_skip hm'] at h
      obtain ⟨pre, files, post, rfl, hpre, hkeys, hhlen⟩ := ih hwf.tail h
      exact ⟨e :: pre, files, post, rfl, by
        intro x hx
        rcases List.mem_cons.mp hx with rfl | hx'
        · exact hm'
        · exact hpre x hx', hkeys, hhlen⟩

end KV

namespace KV

theorem consLookAll_ok {pre : List RootEntry} {c : String} :
    consLookAll pre (.ok c) = .ok c := by
  induction pre with
  | nil => rfl
  | cons e pre ih => simp [consLookAll, List.foldr_cons] at ih ⊢; rw [ih]; rfl

theorem consLookAll_err {pre : List RootEntry} {k : ErrKind} {fs : List RootEntry} :
    consLookAll pre (.err k fs) = .err k (pre ++ fs) := by
  induction pre with
  | nil => rfl
  | cons e pre ih => simp [consLookAll, List.foldr_cons] at ih ⊢; rw [ih]; rfl

theorem consRemAll_ok {V : Type} {pre : List RootEntry} {v : V} {fs : List RootEntry}
    {acts : List FsAction} :
    consRemAll pre (.ok (v, fs), acts) = (.ok (v, pre ++ fs), acts) := by
  induction pre with
  | nil => rfl
  | cons e pre ih => simp [consRemAll, List.foldr_cons] at ih ⊢; rw [ih]; rfl

theorem consRemAll_err {V : Type} {pre : List RootEntry} {k : ErrKind} {fs : List RootEntry}
    {acts : List FsAction} :
    consRemAll (V := V) pre (.err k fs, acts) = (.err k (pre ++ fs), acts) := by
  induction pre with
  | nil => rfl
  | cons e pre ih => simp [consRemAll, List.foldr_cons] at ih ⊢; rw [ih]; rfl

theorem lookupCore_cons_skip {hashed : String} {e : RootEntry} {rest : List RootEntry}
    (h : lookupShardMatch hashed (entryName e) = false) :
    lookupCore hashed (e :: rest) = consLook e (lookupCore hashed rest) := by
  simp [lookupCore, h]

theorem lookupCore_append_skip {hashed : String} {pre rest : List RootEntry}
    (h : ∀ e ∈ pre, lookupShardMatch hashed (entryName e) = false) :
    lookupCore hashed (pre ++ rest) = consLookAll pre (lookupCore hashed rest) := by
  induction pre with
  | nil => rfl
  | cons e pre ih =>
    rw [List.cons_append, lookupCore_cons_skip (h e (List.mem_cons_self e pre)),
        ih fun x hx => h x (List.mem_cons_of_mem e hx)]
    rfl

theorem removeCore_cons_skip {V : Type} {deserV : String → Option V} {hashed : String}
    {e : RootEntry} {rest : List RootEntry}
    (h : lookupShardMatch hashed (entryName e) = false) :
    removeCore deserV hashed (e :: rest) = consRem e (removeCore deserV hashed rest) := by
  simp [removeCore, h]

theorem removeCore_append_skip {V : Type} {deserV : String → Option V} {hashed : String}
    {pre rest : List RootEntry}
    (h : ∀ e ∈ pre, lookupShardMatch hashed (entryName e) = false) :
    removeCore deserV hashed (pre ++ rest) = consRemAll pre (removeCore deserV hashed rest) := by
  induction pre with
  | nil => rfl
  | cons e pre ih =>
    rw [List.cons_append, removeCore_cons_skip (h e (List.mem_cons_self e pre)),
        ih fun x hx => h x (List.mem_cons_of_mem e hx)]
    rfl

/-! ### Filesystem primitive lemmas -/

theorem fsCreateDir_eq {T : String} {fs : List RootEntry}
    (h : ∀ e ∈ fs, entryName e ≠ T) :
    fsCreateDir T fs = some (fs ++ [.dir T []]) := by
  unfold fsCreateDir
  rw [if_neg]
  intro hany
  obtain ⟨e, he, hp⟩ := List.any_eq_true.mp hany
  exact h e he (of_decide_eq_true hp)

theorem map_id_of_names {T f c : String} {l : List RootEntry}
    (hl : ∀ e ∈ l, entryName e ≠ T) :
    l.map (fun e => match e with
      | RootEntry.dir n fls => if n = T then RootEntry.dir n (writeFileIn fls f c)
                               else RootEntry.dir n fls
      | RootEntry.file n c' => RootEntry.file n c') = l := by
  induction l with
  | nil => rfl
  | cons e l ih =>
    rw [List.map_cons, ih fun x hx => hl x (List.mem_cons_of_mem e hx)]
    congr 1
    cases e with
    | file n c' => rfl
    | dir n fls =>
      have hne : n ≠ T := hl _ (List.mem_cons_self _ _)
      simp [hne]

theorem fsWrite_eq {T f c : String} {pre post : List RootEntry} {files : List FileEnt}
    (hpre : ∀ e ∈ pre, entryName e ≠ T) (hpost : ∀ e ∈ post, entryName e ≠ T) :
    fsWrite T f c (pre ++ .dir T files :: post)
      = some (pre ++ .dir T (writeFileIn files f c) :: post) := by
  unfold fsWrite
  rw [if_pos]
  · congr 1
    rw [List.map_append, List.map_cons, map_id_of_names hpre, map_id_of_names hpost]
    simp
  · simp [List.any_append, List.any_cons]

end KV

namespace KV

theorem find?_map_replace {files : List FileEnt} {f c : String}
    (h : files.any (fun g => decide (g.name = f)) = true) :
    (files.map (fun g => if g.name = f then (⟨f, c⟩ : FileEnt) else g)).find?
      (fun g => decide (g.name = f)) = some ⟨f, c⟩ := by
  induction files with
  | nil => simp at h
  | cons g gs ih =>
    by_cases hg : g.name = f
    · simp [List.find?_cons, hg]
    · rw [List.map_cons, if_neg hg, List.find?_cons]
      simp only [hg, decide_False]
      apply ih
      simpa [List.any_cons, hg] using h

theorem find?_writeFileIn_self {files : List FileEnt} {f c : String} :
    (writeFileIn files f c).find? (fun g => decide (g.name = f)) = some ⟨f, c⟩ := by
  unfold writeFileIn
  by_cases hany : files.any (fun g => decide (g.name = f)) = true
  · rw [if_pos hany]
    exact find?_map_replace hany
  · rw [if_neg hany, List.find?_append]
    have h1 : files.find? (fun g => decide (g.name = f)) = none :=
      List.find?_eq_none.mpr fun x hx hpx => hany (List.any_eq_true.mpr ⟨x, hx, hpx⟩)
    rw [h1]
    simp [List.find?]

theorem lookup_skip_of_insert_skip {hashed : String} {e : RootEntry}
    (hsh : ∃ n files, e = RootEntry.dir n files ∧ n.data.length = 10)
    (h : insertShardMatch hashed (entryName e) = false) :
    lookupShardMatch hashed (entryName e) = false := by
  obtain ⟨n, files, rfl, hlen⟩ := hsh
  rw [show entryName (RootEntry.dir n files) = n from rfl] at h ⊢
  rw [shardMatch_bridge hlen]
  exact h

theorem lookupShardMatch_self {hashed : String} (hlen : 10 ≤ hashed.data.length) :
    lookupShardMatch hashed (first10 hashed) = true := by
  rw [lookupShardMatch_iff]
  constructor
  · rw [first10_length]; omega
  · exact first10_idem hashed

theorem lookupCore_shard_hit {hashed dname : String} {files : List FileEnt}
    {post : List RootEntry} {fv : FileEnt}
    (hm : lookupShardMatch hashed dname = true)
    (hfind : files.find? (fun f => decide (f.name = valueFileName hashed)) = some fv) :
    lookupCore hashed (RootEntry.dir dname files :: post) = .ok fv.content := by
  simp [lookupCore, entryName, hm, hfind]

end KV

namespace KV

/-- C2: on a store-generated root listing, a successful `insert` of a key
with hash `hashed` and serialized value `serVal` followed by `lookup` of the
same key returns exactly the inserted value (given that the value's
serialization round-trips). -/
theorem insert_then_lookup_roundtrip {V : Type} {deserV : String → Option V}
    {st : KVStore} {fs fs' : List RootEntry} {hashed serKey serVal : String} {v : V}
    (hwf : StoreWF fs) (hlen : 10 ≤ hashed.data.length)
    (hdeser : deserV serVal = some v)
    (hok : (kvInsert st fs hashed serKey serVal).2.1 = Outcome.ok fs') :
    kvLookup deserV st fs' hashed = Outcome.ok v := by
  rw [show (kvInsert st fs hashed serKey serVal).2.1 = (insertCore hashed serKey serVal fs).1
      from rfl] at hok
  cases hscan : insertScan hashed fs with
  | dup => simp [insertCore, hscan] at hok
  | found =>
    obtain ⟨pre, files, post, rfl, hpre, hkeys, -⟩ := insertScan_found_decomp hwf hscan
    have hnames := nodup_decomp_names hwf.nodup
    have hpreT : ∀ e ∈ pre, entryName e ≠ first10 hashed := by
      intro e he heq
      have hm := (insertShardMatch_iff hlen).mpr heq
      rw [hpre e he] at hm
      exact Bool.false_ne_true hm
    have hpostT : ∀ e ∈ post, entryName e ≠ first10 hashed := hnames.2
    have hins : (insertCore hashed serKey serVal
        (pre ++ RootEntry.dir (first10 hashed) files :: post)).1
        = Outcome.ok (pre ++ RootEntry.dir (first10 hashed)
            (writeFileIn (writeFileIn files (keyFileName hashed) serKey)
              (valueFileName hashed) serVal) :: post) := by
      simp only [insertCore, hscan]
      rw [if_neg (fun h => InsScan.noConfusion h)]
      dsimp only
      rw [fsWrite_eq hpreT hpostT]
      dsimp only
      rw [fsWrite_eq hpreT hpostT]
    rw [hins] at hok
    obtain rfl : fs' = _ := (Outcome.ok.injEq _ _).mp hok.symm
    have hskip : ∀ e ∈ pre, lookupShardMatch hashed (entryName e) = false := fun e he =>
      lookup_skip_of_insert_skip (hwf.shape e (List.mem_append.mpr (Or.inl he))) (hpre e he)
    unfold kvLookup
    rw [lookupCore_append_skip hskip,
        lookupCore_shard_hit (lookupShardMatch_self hlen) find?_writeFileIn_self,
        consLookAll_ok]
    dsimp only
    rw [hdeser]
  | absent =>
    have hall := insertScan_absent_all hscan
    have hT : ∀ e ∈ fs, entryName e ≠ first10 hashed := by
      intro e he heq
      have hm := (insertShardMatch_iff hlen).mpr heq
      rw [hall e he] at hm
      exact Bool.false_ne_true hm
    have hins : (insertCore hashed serKey serVal fs).1
        = Outcome.ok (fs ++ RootEntry.dir (first10 hashed)
            (writeFileIn (writeFileIn [] (keyFileName hashed) serKey)
              (valueFileName hashed) serVal) :: []) := by
      simp only [insertCore, hscan]
      rw [if_pos trivial, fsCreateDir_eq hT]
      dsimp only
      rw [show fs ++ [RootEntry.dir (first10 hashed) []]
            = fs ++ RootEntry.dir (first10 hashed) [] :: [] from rfl]
      rw [fsWrite_eq hT (by simp)]
      dsimp only
      rw [fsWrite_eq hT (by simp)]
    rw [hins] at hok
    obtain rfl : fs' = _ := (Outcome.ok.injEq _ _).mp hok.symm
    have hskip : ∀ e ∈ fs, lookupShardMatch hashed (entryName e) = false := fun e he =>
      lookup_skip_of_insert_skip (hwf.shape e he) (hall e he)
    unfold kvLookup
    rw [lookupCore_append_skip hskip,
        lookupCore_shard_hit (lookupShardMatch_self hlen) find?_writeFileIn_self,
        consLookAll_ok]
    dsimp only
    rw [hdeser]

end KV

namespace KV

/-- C3: inserting a key that already has a live entry (its shard directory
holds the key-record) fails with AlreadyExists; the handle — `size`
included — is returned unchanged, the filesystem is unchanged, and no
directory creation or file write is performed. -/
theorem insert_duplicate_noop {st : KVStore} {fs : List RootEntry}
    {hashed serKey serVal T : String} {files : List FileEnt}
    (hwf : StoreWF fs) (hT : T = first10 hashed)
    (hmem : RootEntry.dir T files ∈ fs)
    (hkey : ∃ f ∈ files, f.name = keyFileName hashed) :
    kvInsert st fs hashed serKey serVal = (st, .err .alreadyExists fs, []) := by
  obtain ⟨pre, post, rfl⟩ := List.append_of_mem hmem
  obtain ⟨n, fls, heq, hlen10⟩ :=
    hwf.shape _ (List.mem_append.mpr (Or.inr (List.mem_cons_self _ _)))
  obtain ⟨rfl, rfl⟩ : T = n ∧ files = fls := by
    cases heq
    exact ⟨rfl, rfl⟩
  have hlen : 10 ≤ hashed.data.length := by
    have h1 : (first10 hashed).data.length = 10 := hT ▸ hlen10
    rw [first10_length] at h1
    omega
  have hnames := nodup_decomp_names hwf.nodup
  have hpreSkip : ∀ e ∈ pre, insertShardMatch hashed (entryName e) = false := by
    intro e he
    apply Bool.eq_false_iff.mpr
    intro hm
    exact hnames.1 e he (((insertShardMatch_iff hlen).mp hm).trans hT.symm)
  have hmT : insertShardMatch hashed T = true := (insertShardMatch_iff hlen).mpr hT
  have hany : files.any (fun f => decide (f.name = keyFileName hashed)) = true := by
    obtain ⟨f, hf, hfn⟩ := hkey
    exact List.any_eq_true.mpr ⟨f, hf, by simp [hfn]⟩
  have hscan : insertScan hashed (pre ++ RootEntry.dir T files :: post) = .dup := by
    rw [insertScan_append_skip hpreSkip]
    simp [insertScan, entryName, hmT, hany]
  simp [kvInsert, insertCore, hscan]

/-- C4 helper: when no examined shard holds the value-record, lookup
returns NotFound with the filesystem unchanged. -/
theorem lookupCore_notFound {hashed : String} {fs : List RootEntry}
    (h : ∀ n files, RootEntry.dir n files ∈ fs → lookupShardMatch hashed n = true →
         ∀ f ∈ files, f.name ≠ valueFileName hashed) :
    lookupCore hashed fs = .err .notFound fs := by
  induction fs with
  | nil => rfl
  | cons e rest ih =>
    have ih' := ih fun n files hm => h n files (List.mem_cons_of_mem e hm)
    by_cases hm : lookupShardMatch hashed (entryName e) = true
    · cases e with
      | dir dname files =>
        have hm' : lookupShardMatch hashed dname = true := hm
        have hfind : files.find? (fun f => decide (f.name = valueFileName hashed)) = none :=
          List.find?_eq_none.mpr fun x hx hpx =>
            h dname files (List.mem_cons_self _ _) hm' x hx (of_decide_eq_true hpx)
        simp [lookupCore, entryName, hm', hfind]
      | file n c =>
        have hm' : lookupShardMatch hashed n = true := hm
        simp only [lookupCore, entryName, hm', if_true]
        rw [ih']
        rfl
    · rw [lookupCore_cons_skip (Bool.eq_false_iff.mpr hm), ih']
      rfl

/-- C4 helper: when no examined shard holds the value-record, remove
returns NotFound with the filesystem unchanged and no filesystem action. -/
theorem removeCore_notFound {V : Type} {deserV : String → Option V}
    {hashed : String} {fs : List RootEntry}
    (h : ∀ n files, RootEntry.dir n files ∈ fs → lookupShardMatch hashed n = true →
         ∀ f ∈ files, f.name ≠ valueFileName hashed) :
    removeCore deserV hashed fs = (.err .notFound fs, []) := by
  induction fs with
  | nil => rfl
  | cons e rest ih =>
    have ih' := ih fun n files hm => h n files (List.mem_cons_of_mem e hm)
    by_cases hm : lookupShardMatch hashed (entryName e) = true
    · cases e with
      | dir dname files =>
        have hm' : lookupShardMatch hashed dname = true := hm
        have hany : files.any (fun f => decide (f.name = valueFileName hashed)) = false := by
          apply Bool.eq_false_iff.mpr
          intro hx
          obtain ⟨f, hf, hpf⟩ := List.any_eq_true.mp hx
          exact h dname files (List.mem_cons_self _ _) hm' f hf (of_decide_eq_true hpf)
        simp [removeCore, entryName, hm', hany]
      | file n c =>
        have hm' : lookupShardMatch hashed n = true := hm
        simp only [removeCore, entryName, hm', if_true]
        rw [ih']
        rfl
    · rw [removeCore_cons_skip (Bool.eq_false_iff.mpr hm), ih']
      rfl

/-- C4: for a key with no live entry — its shard absent, or present without
the matching value-record — lookup and remove both fail NotFound and
mutate nothing: the handle is unchanged, the filesystem is returned as it
was, and no filesystem action is performed. -/
theorem lookup_remove_absent_notFound {V : Type} {deserV : String → Option V}
    {st : KVStore} {fs : List RootEntry} {hashed : String}
    (hnoval : ∀ n files, RootEntry.dir n files ∈ fs → lookupShardMatch hashed n = true →
        ∀ f ∈ files, f.name ≠ valueFileName hashed) :
    kvLookup deserV st fs hashed = .err .notFound fs ∧
    kvRemove deserV st fs hashed = (st, .err .notFound fs, []) := by
  constructor
  · rw [kvLookup, lookupCore_notFound hnoval]
  · rw [kvRemove, removeCore_notFound hnoval]

end KV

namespace KV

theorem wf_singleton {files : List FileEnt} :
    StoreWF [RootEntry.dir (first10 hashA) files] := by
  constructor
  · intro e he
    rw [List.mem_singleton] at he
    subst he
    exact ⟨first10 hashA, files, rfl, by decide⟩
  · simp

/-- Witness for C2: inserting into an empty root and looking the key up
returns the inserted serialized value. -/
theorem insert_then_lookup_roundtrip_witness :
    (kvInsert ⟨0, "root/"⟩ [] hashA "sk" "sv").2.1
        = Outcome.ok [RootEntry.dir (first10 hashA)
            [⟨keyFileName hashA, "sk"⟩, ⟨valueFileName hashA, "sv"⟩]] ∧
    kvLookup (fun s => (some s : Option String)) ⟨0, "root/"⟩
        [RootEntry.dir (first10 hashA)
          [⟨keyFileName hashA, "sk"⟩, ⟨valueFileName hashA, "sv"⟩]] hashA
      = Outcome.ok "sv" := by
  have hok : (kvInsert (⟨0, "root/"⟩ : KVStore) [] hashA "sk" "sv").2.1
      = Outcome.ok [RootEntry.dir (first10 hashA)
          [⟨keyFileName hashA, "sk"⟩, ⟨valueFileName hashA, "sv"⟩]] := by decide
  refine ⟨hok, insert_then_lookup_roundtrip ⟨by simp, by simp⟩ (by decide) rfl hok⟩

/-- Witness for C3: a second insert of the same key fails AlreadyExists and
changes nothing. -/
theorem insert_duplicate_noop_witness :
    kvInsert ⟨1, "root/"⟩
        [RootEntry.dir (first10 hashA)
          [⟨keyFileName hashA, "sk"⟩, ⟨valueFileName hashA, "sv"⟩]] hashA "sk2" "sv2"
      = (⟨1, "root/"⟩, .err .alreadyExists
          [RootEntry.dir (first10 hashA)
            [⟨keyFileName hashA, "sk"⟩, ⟨valueFileName hashA, "sv"⟩]], []) :=
  insert_duplicate_noop wf_singleton rfl (List.mem_singleton.mpr rfl)
    ⟨⟨keyFileName hashA, "sk"⟩, by simp, rfl⟩

/-- Witness for C4: a shard holding only an (orphaned) key-record: lookup
and remove both fail NotFound without mutation. -/
theorem lookup_remove_absent_notFound_witness :
    kvLookup (fun s => (some s : Option String)) ⟨1, "root/"⟩
        [RootEntry.dir (first10 hashA) [⟨keyFileName hashA, "sk"⟩]] hashA
      = .err .notFound [RootEntry.dir (first10 hashA) [⟨keyFileName hashA, "sk"⟩]] ∧
    kvRemove (fun s => (some s : Option String)) ⟨1, "root/"⟩
        [RootEntry.dir (first10 hashA) [⟨keyFileName hashA, "sk"⟩]] hashA
      = (⟨1, "root/"⟩, .err .notFound
          [RootEntry.dir (first10 hashA) [⟨keyFileName hashA, "sk"⟩]], []) := by
  apply lookup_remove_absent_notFound
  intro n files hmem hm f hf heq
  rw [List.mem_singleton] at hmem
  rw [show RootEntry.dir n files = RootEntry.dir (first10 hashA) [⟨keyFileName hashA, "sk"⟩]
        ↔ n = first10 hashA ∧ files = [⟨keyFileName hashA, "sk"⟩] by
      constructor
      · intro h
        cases h
        exact ⟨rfl, rfl⟩
      · rintro ⟨rfl, rfl⟩
        rfl] at hmem
  obtain ⟨rfl, rfl⟩ := hmem
  rw [List.mem_singleton] at hf
  subst hf
  exact keyFileName_ne_valueFileName hashA heq

end KV

namespace KV

/-- C1 (failing input): on a freshly opened empty store, a successful
insert leaves the handle's `size` at 0 even though exactly one key-record
now exists on disk — `insert` (and `remove`) never assign `size`; only
`new` computes it. -/
theorem insert_leaves_size_stale :
    kvNew "root" [] = ⟨0, "root/"⟩ ∧
    (kvInsert (kvNew "root" []) [] hashA "sk" "sv").1.size = 0 ∧
    (kvInsert (kvNew "root" []) [] hashA "sk" "sv").2.1
        = Outcome.ok [RootEntry.dir (first10 hashA)
            [⟨keyFileName hashA, "sk"⟩, ⟨valueFileName hashA, "sv"⟩]] ∧
    countKeyFiles "root"
        [RootEntry.dir (first10 hashA)
          [⟨keyFileName hashA, "sk"⟩, ⟨valueFileName hashA, "sv"⟩]] = 1 := by
  refine ⟨by decide, by decide, by decide, by decide⟩

/-- C7 (failing input): when the shard path is occupied by a plain file,
the `fs::write(..).expect(..)` in insert aborts the process instead of
returning the I/O error in the `Result`. -/
theorem insert_write_failure_aborts :
    (kvInsert ⟨0, "root/"⟩ [RootEntry.file (first10 hashA) "junk"] hashA "sk" "sv").2.1
      = Outcome.aborted := by
  decide

end KV

namespace KV

/-- C8 counterexample: a root directory whose name is 12 characters long —
not equal to the 10-character prefix — is nonetheless treated as the key's
shard by lookup, which returns the value stored inside it. -/
theorem lookup_matches_longer_name :
    lookupCore hashA
        [RootEntry.dir (first10 hashA ++ "xx") [⟨valueFileName hashA, "5"⟩]]
      = Outcome.ok "5" ∧
    first10 hashA ++ "xx" ≠ first10 hashA := by
  refine ⟨by decide, by decide⟩

/-- C8 (amended): insert treats a root entry as the key's shard iff its
name is exactly the hash's 10-character prefix, while lookup and remove
treat a root entry as the shard iff its name is at least 10 characters
long and its first 10 characters equal the prefix; the entry files are
named by the full hash plus the `.key`/`.value` suffixes. -/
theorem shard_matching_characterization {hashed name : String}
    (hlen : 10 ≤ hashed.data.length) :
    (insertShardMatch hashed name = true ↔ name = first10 hashed) ∧
    (lookupShardMatch hashed name = true ↔
      (10 ≤ name.data.length ∧ first10 name = first10 hashed)) ∧
    keyFileName hashed = hashed ++ ".key" ∧
    valueFileName hashed = hashed ++ ".value" :=
  ⟨insertShardMatch_iff hlen, lookupShardMatch_iff, rfl, rfl⟩

/-- Witness for the amended C8 at a concrete name and hash. -/
theorem shard_matching_characterization_witness :
    (insertShardMatch hashA (first10 hashA ++ "xx") = true
        ↔ first10 hashA ++ "xx" = first10 hashA) ∧
    (lookupShardMatch hashA (first10 hashA ++ "xx") = true
        ↔ (10 ≤ (first10 hashA ++ "xx").data.length ∧
           first10 (first10 hashA ++ "xx") = first10 hashA)) ∧
    keyFileName hashA = hashA ++ ".key" ∧
    valueFileName hashA = hashA ++ ".value" :=
  shard_matching_characterization (by decide)

end KV

namespace KV

theorem find?_filter_of_imp {α : Type} {p q : α → Bool} {l : List α}
    (h : ∀ a, p a = true → q a = true) :
    (l.filter q).find? p = l.find? p := by
  induction l with
  | nil => rfl
  | cons a l ih =>
    by_cases hq : q a = true
    · rw [List.filter_cons_of_pos hq, List.find?_cons, List.find?_cons]
      cases hp : p a <;> simp [ih]
    · have hp : p a = false := by
        cases hpa : p a
        · rfl
        · exact absurd (h a hpa) hq
      rw [List.filter_cons_of_neg (by simpa using hq), List.find?_cons, hp, ih]

theorem removeCore_reach {V : Type} {deserV : String → Option V} {hashed T : String}
    {pre post : List RootEntry} {files : List FileEnt} {fv : FileEnt}
    (hpre : ∀ e ∈ pre, lookupShardMatch hashed (entryName e) = false)
    (hm : lookupShardMatch hashed T = true)
    (hfind : files.find? (fun f => decide (f.name = valueFileName hashed)) = some fv) :
    removeCore deserV hashed (pre ++ RootEntry.dir T files :: post)
      = consRemAll pre (removeInShard deserV hashed T files post) := by
  rw [removeCore_append_skip hpre]
  congr 1
  have hpv := List.find?_some (p := fun (f : FileEnt) => decide (f.name = valueFileName hashed)) hfind
  have hany : files.any (fun f => decide (f.name = valueFileName hashed)) = true :=
    List.any_eq_true.mpr ⟨fv, List.mem_of_find?_eq_some hfind, hpv⟩
  simp [removeCore, entryName, hm, hany]

/-- Lookup-guard skipping for store-generated entries, derived from
well-formedness and name uniqueness. -/
theorem wf_pre_skip {hashed : String} {fs pre post : List RootEntry}
    {files : List FileEnt}
    (hwf : StoreWF fs)
    (hfs : fs = pre ++ RootEntry.dir (first10 hashed) files :: post) :
    ∀ e ∈ pre, lookupShardMatch hashed (entryName e) = false := by
  subst hfs
  intro e he
  obtain ⟨n, fls, rfl, hlen10⟩ := hwf.shape e (List.mem_append.mpr (Or.inl he))
  have hnames := (nodup_decomp_names hwf.nodup).1
  apply Bool.eq_false_iff.mpr
  intro hmt
  rw [show entryName (RootEntry.dir n fls) = n from rfl] at hmt
  obtain ⟨-, hfirst⟩ := lookupShardMatch_iff.mp hmt
  have : n = first10 hashed := by rw [← first10_eq_self hlen10, hfirst]
  exact hnames _ he this

end KV

namespace KV

/-- C10: a shard holding a value-record for the hash but no key-record (an
orphaned value-record) is still treated as a live entry by remove: it does
not fail NotFound, but returns the deserialized value, deletes the
value-record (the only deletion), and prunes the shard if now empty —
presence is decided by the value-record alone. -/
theorem remove_orphaned_value {V : Type} {deserV : String → Option V}
    {st : KVStore} {fs pre post : List RootEntry} {hashed : String}
    {files : List FileEnt} {fv : FileEnt} {v : V}
    (hwf : StoreWF fs) (hfs : fs = pre ++ RootEntry.dir (first10 hashed) files :: post)
    (hlen : 10 ≤ hashed.data.length)
    (hfind : files.find? (fun f => decide (f.name = valueFileName hashed)) = some fv)
    (hnokey : ∀ f ∈ files, f.name ≠ keyFileName hashed)
    (hdeser : deserV fv.content = some v) :
    kvRemove deserV st fs hashed
      = (st,
         Outcome.ok (v, pre ++
           (if (files.filter fun f => !decide (f.name = valueFileName hashed)).isEmpty
            then post
            else RootEntry.dir (first10 hashed)
              (files.filter fun f => !decide (f.name = valueFileName hashed)) :: post)),
         [FsAction.readFile (first10 hashed) (valueFileName hashed),
          FsAction.delFile (first10 hashed) (valueFileName hashed)]
           ++ (if (files.filter fun f => !decide (f.name = valueFileName hashed)).isEmpty
               then [FsAction.delDir (first10 hashed)] else [])) := by
  subst hfs
  have hpre := wf_pre_skip hwf rfl
  rw [kvRemove, removeCore_reach hpre (lookupShardMatch_self hlen) hfind]
  have hasKeyF : files.any (fun f => decide (f.name = keyFileName hashed)) = false := by
    apply Bool.eq_false_iff.mpr
    intro hx
    obtain ⟨f, hf, hpf⟩ := List.any_eq_true.mp hx
    exact hnokey f hf (of_decide_eq_true hpf)
  simp only [removeInShard, hasKeyF, Bool.false_eq_true, if_false, hfind, hdeser]
  by_cases hemp : (files.filter fun f => !decide (f.name = valueFileName hashed)).isEmpty = true
  · rw [if_pos hemp, if_pos hemp, if_pos hemp, consRemAll_ok]
    simp
  · rw [if_neg (by simpa using hemp), if_neg (by simpa using hemp),
        if_neg (by simpa using hemp), consRemAll_ok]
    simp

end KV

namespace KV

/-- C6 counterexample: on a store holding one full entry, remove performs
delete-key-record *first*, then reads the value-record — not the claimed
read-first order. -/
theorem remove_deletes_key_first_concrete :
    (removeCore (fun s => (some s : Option String)) hashA
        [RootEntry.dir (first10 hashA)
          [⟨keyFileName hashA, "sk"⟩, ⟨valueFileName hashA, "sv"⟩]]).2
      = [FsAction.delFile (first10 hashA) (keyFileName hashA),
         FsAction.readFile (first10 hashA) (valueFileName hashA),
         FsAction.delFile (first10 hashA) (valueFileName hashA),
         FsAction.delDir (first10 hashA)] ∧
    (removeCore (fun s => (some s : Option String)) hashA
        [RootEntry.dir (first10 hashA)
          [⟨keyFileName hashA, "sk"⟩, ⟨valueFileName hashA, "sv"⟩]]).2
      ≠ [FsAction.readFile (first10 hashA) (valueFileName hashA),
         FsAction.delFile (first10 hashA) (keyFileName hashA),
         FsAction.delFile (first10 hashA) (valueFileName hashA),
         FsAction.delDir (first10 hashA)] := by
  refine ⟨by decide, by decide⟩

/-- C6 (amended): a successful remove of a live entry performs, in order:
delete the key-record, then read (and deserialize) the value-record, then
delete the value-record, then prune the shard directory if it is now
empty. -/
theorem remove_step_order {V : Type} {deserV : String → Option V}
    {st : KVStore} {fs pre post : List RootEntry} {hashed : String}
    {files : List FileEnt} {fv : FileEnt} {v : V}
    (hwf : StoreWF fs) (hfs : fs = pre ++ RootEntry.dir (first10 hashed) files :: post)
    (hlen : 10 ≤ hashed.data.length)
    (hfind : files.find? (fun f => decide (f.name = valueFileName hashed)) = some fv)
    (hkey : files.any (fun f => decide (f.name = keyFileName hashed)) = true)
    (hdeser : deserV fv.content = some v) :
    kvRemove deserV st fs hashed
      = (st,
         Outcome.ok (v, pre ++
           (if ((files.filter fun f => !decide (f.name = keyFileName hashed)).filter
                  fun f => !decide (f.name = valueFileName hashed)).isEmpty
            then post
            else RootEntry.dir (first10 hashed)
              ((files.filter fun f => !decide (f.name = keyFileName hashed)).filter
                fun f => !decide (f.name = valueFileName hashed)) :: post)),
         [FsAction.delFile (first10 hashed) (keyFileName hashed),
          FsAction.readFile (first10 hashed) (valueFileName hashed),
          FsAction.delFile (first10 hashed) (valueFileName hashed)]
           ++ (if ((files.filter fun f => !decide (f.name = keyFileName hashed)).filter
                    fun f => !decide (f.name = valueFileName hashed)).isEmpty
               then [FsAction.delDir (first10 hashed)] else [])) := by
  subst hfs
  have hpre := wf_pre_skip hwf rfl
  rw [kvRemove, removeCore_reach hpre (lookupShardMatch_self hlen) hfind]
  have hfind1 : ((files.filter fun f => !decide (f.name = keyFileName hashed)).find?
      fun f => decide (f.name = valueFileName hashed)) = some fv := by
    rw [find?_filter_of_imp]
    · exact hfind
    · intro a ha
      have : a.name = valueFileName hashed := of_decide_eq_true ha
      simp [this, (keyFileName_ne_valueFileName hashed).symm]
  simp only [removeInShard, hkey, if_true, hfind1, hdeser]
  by_cases hemp : ((files.filter fun f => !decide (f.name = keyFileName hashed)).filter
      fun f => !decide (f.name = valueFileName hashed)).isEmpty = true
  · rw [if_pos hemp, if_pos hemp, if_pos hemp, consRemAll_ok]
    simp
  · rw [if_neg (by simpa using hemp), if_neg (by simpa using hemp),
        if_neg (by simpa using hemp), consRemAll_ok]
    simp

end KV

namespace KV

theorem consRem_fst_ok {V : Type} {e : RootEntry}
    {r : Outcome (V × List RootEntry) × List FsAction} {v : V} {fs' : List RootEntry}
    (h : (consRem e r).1 = .ok (v, fs')) :
    ∃ fs'', r.1 = .ok (v, fs'') ∧ fs' = e :: fs'' := by
  obtain ⟨out, a⟩ := r
  cases out with
  | ok p =>
    obtain ⟨v', fs''⟩ := p
    simp only [consRem, Outcome.ok.injEq, Prod.mk.injEq] at h
    exact ⟨fs'', by simp [h.1], h.2.symm⟩
  | err k f => simp [consRem] at h
  | aborted => simp [consRem] at h

theorem removeInShard_ok_inv {V : Type} {deserV : String → Option V}
    {hashed dname : String} {files : List FileEnt} {rest : List RootEntry}
    {v : V} {fs' : List RootEntry}
    (h : (removeInShard deserV hashed dname files rest).1 = Outcome.ok (v, fs')) :
    fs' = rest ∨ ∃ files2, fs' = RootEntry.dir dname files2 :: rest ∧ files2 ≠ [] := by
  cases hk : files.any (fun f => decide (f.name = keyFileName hashed)) with
  | true =>
    simp only [removeInShard, hk, eq_self_iff_true, if_true] at h
    split at h
    · simp at h
    · split at h
      · simp at h
      · split at h
        · next hemp =>
          left
          injection h with h1
          injection h1 with h2 h3
          exact h3.symm
        · next hemp =>
          right
          injection h with h1
          injection h1 with h2 h3
          exact ⟨_, h3.symm, fun habs => hemp (by rw [habs]; rfl)⟩
  | false =>
    simp only [removeInShard, hk, Bool.false_eq_true, if_false] at h
    split at h
    · simp at h
    · split at h
      · simp at h
      · split at h
        · next hemp =>
          left
          injection h with h1
          injection h1 with h2 h3
          exact h3.symm
        · next hemp =>
          right
          injection h with h1
          injection h1 with h2 h3
          exact ⟨_, h3.symm, fun habs => hemp (by rw [habs]; rfl)⟩

theorem remove_no_empty_aux {V : Type} {deserV : String → Option V}
    {st : KVStore} {fs : List RootEntry} {hashed : String} {v : V}
    {fs' : List RootEntry}
    (hok : (kvRemove deserV st fs hashed).2.1 = Outcome.ok (v, fs'))
    (hpre : ∀ n files, RootEntry.dir n files ∈ fs → files ≠ []) :
    ∀ n files, RootEntry.dir n files ∈ fs' → files ≠ [] := by
  rw [show (kvRemove deserV st fs hashed).2.1 = (removeCore deserV hashed fs).1 from rfl] at hok
  induction fs generalizing fs' with
  | nil => simp [removeCore] at hok
  | cons e rest ih =>
    have hpre' : ∀ n files, RootEntry.dir n files ∈ rest → files ≠ [] :=
      fun n files hm => hpre n files (List.mem_cons_of_mem e hm)
    by_cases hm : lookupShardMatch hashed (entryName e) = true
    · cases e with
      | dir dname files =>
        have hm' : lookupShardMatch hashed dname = true := hm
        by_cases hany : files.any (fun f => decide (f.name = valueFileName hashed)) = true
        · have hrw : removeCore deserV hashed (RootEntry.dir dname files :: rest)
              = removeInShard deserV hashed dname files rest := by
            simp [removeCore, entryName, hm', hany]
          rw [hrw] at hok
          rcases removeInShard_ok_inv hok with rfl | ⟨files2, rfl, hne⟩
          · intro n fls hmem
            exact hpre' n fls hmem
          · intro n fls hmem
            rcases List.mem_cons.mp hmem with heq | hmem'
            · cases heq
              exact hne
            · exact hpre' n fls hmem'
        · simp [removeCore, entryName, hm', hany] at hok
      | file n c =>
        have hm' : lookupShardMatch hashed n = true := hm
        have hrw : removeCore deserV hashed (RootEntry.file n c :: rest)
            = consRem (RootEntry.file n c) (removeCore deserV hashed rest) := by
          simp [removeCore, entryName, hm']
        rw [hrw] at hok
        obtain ⟨fs'', hok', rfl⟩ := consRem_fst_ok hok
        intro m fls hmem
        rcases List.mem_cons.mp hmem with heq | hmem'
        · cases heq
        · exact ih hok' hpre' m fls hmem'
    · rw [removeCore_cons_skip (Bool.eq_false_iff.mpr hm)] at hok
      obtain ⟨fs'', hok', rfl⟩ := consRem_fst_ok hok
      intro m fls hmem
      rcases List.mem_cons.mp hmem with heq | hmem'
      · subst heq
        exact hpre m fls (List.mem_cons_self _ _)
      · exact ih hok' hpre' m fls hmem'

theorem noEmptyDirs_iff {fs : List RootEntry} :
    noEmptyDirs fs = true ↔ ∀ n files, RootEntry.dir n files ∈ fs → files ≠ [] := by
  rw [noEmptyDirs, List.all_eq_true]
  constructor
  · intro h n files hm habs
    have h2 := h _ hm
    rw [habs] at h2
    simp at h2
  · intro h e he
    cases e with
    | file n c => rfl
    | dir n files =>
      cases files with
      | nil => exact absurd rfl (h n [] he)
      | cons g gs => rfl

/-- C9: a successful remove never leaves an empty shard directory behind:
if no directory in the listing was empty before the call, none is empty
after it (remove prunes the shard it emptied). -/
theorem remove_leaves_no_empty_shard {V : Type} {deserV : String → Option V}
    {st : KVStore} {fs : List RootEntry} {hashed : String} {v : V}
    {fs' : List RootEntry}
    (hok : (kvRemove deserV st fs hashed).2.1 = Outcome.ok (v, fs'))
    (hpre : noEmptyDirs fs = true) :
    noEmptyDirs fs' = true :=
  noEmptyDirs_iff.mpr (remove_no_empty_aux hok (noEmptyDirs_iff.mp hpre))

end KV

namespace KV

/-- Witness for the amended C6 on a one-entry store: the trace is
delete-key, read-value, delete-value, prune. -/
theorem remove_step_order_witness :
    kvRemove (fun s => (some s : Option String)) ⟨1, "root/"⟩
        [RootEntry.dir (first10 hashA)
          [⟨keyFileName hashA, "sk"⟩, ⟨valueFileName hashA, "sv"⟩]] hashA
      = (⟨1, "root/"⟩, Outcome.ok ("sv", ([] : List RootEntry)),
         [FsAction.delFile (first10 hashA) (keyFileName hashA),
          FsAction.readFile (first10 hashA) (valueFileName hashA),
          FsAction.delFile (first10 hashA) (valueFileName hashA),
          FsAction.delDir (first10 hashA)]) := by
  have hfind : (([⟨keyFileName hashA, "sk"⟩, ⟨valueFileName hashA, "sv"⟩] : List FileEnt).find?
      fun f => decide (f.name = valueFileName hashA)) = some ⟨valueFileName hashA, "sv"⟩ := by
    decide
  exact (@remove_step_order String (fun s => some s) ⟨1, "root/"⟩
      [RootEntry.dir (first10 hashA)
        [⟨keyFileName hashA, "sk"⟩, ⟨valueFileName hashA, "sv"⟩]] [] [] hashA
      [⟨keyFileName hashA, "sk"⟩, ⟨valueFileName hashA, "sv"⟩]
      ⟨valueFileName hashA, "sv"⟩ "sv"
      wf_singleton rfl (by decide) hfind (by decide) rfl).trans (by decide)

/-- Witness for C10 on a store whose shard holds only the orphaned
value-record. -/
theorem remove_orphaned_value_witness :
    kvRemove (fun s => (some s : Option String)) ⟨1, "root/"⟩
        [RootEntry.dir (first10 hashA) [⟨valueFileName hashA, "sv"⟩]] hashA
      = (⟨1, "root/"⟩, Outcome.ok ("sv", ([] : List RootEntry)),
         [FsAction.readFile (first10 hashA) (valueFileName hashA),
          FsAction.delFile (first10 hashA) (valueFileName hashA),
          FsAction.delDir (first10 hashA)]) := by
  have hfind : (([⟨valueFileName hashA, "sv"⟩] : List FileEnt).find?
      fun f => decide (f.name = valueFileName hashA)) = some ⟨valueFileName hashA, "sv"⟩ := by
    decide
  have hnokey : ∀ f ∈ ([⟨valueFileName hashA, "sv"⟩] : List FileEnt),
      f.name ≠ keyFileName hashA := by decide
  exact (@remove_orphaned_value String (fun s => some s) ⟨1, "root/"⟩
      [RootEntry.dir (first10 hashA) [⟨valueFileName hashA, "sv"⟩]] [] [] hashA
      [⟨valueFileName hashA, "sv"⟩] ⟨valueFileName hashA, "sv"⟩ "sv"
      wf_singleton rfl (by decide) hfind hnokey rfl).trans (by decide)

/-- Witness for C9: removing the only entry of a one-shard store prunes
the shard, leaving no directory at all. -/
theorem remove_leaves_no_empty_shard_witness :
    noEmptyDirs ([] : List RootEntry) = true := by
  have hok : (kvRemove (fun s => (some s : Option String)) ⟨1, "root/"⟩
      [RootEntry.dir (first10 hashA)
        [⟨keyFileName hashA, "sk"⟩, ⟨valueFileName hashA, "sv"⟩]] hashA).2.1
      = Outcome.ok ("sv", ([] : List RootEntry)) := by decide
  exact remove_leaves_no_empty_shard hok (by decide)

end KV

namespace KV

/-! ### Substring reasoning for the recovery walk -/

theorem startsWithChars_append (p t : List Char) :
    startsWithChars p (p ++ t) = true := by
  induction p with
  | nil => rfl
  | cons c p ih => simp [startsWithChars, ih]

theorem containsChars_append_self (p a : List Char) :
    containsChars p (a ++ p) = true := by
  induction a with
  | nil =>
    cases p with
    | nil => rfl
    | cons c p =>
      have := startsWithChars_append (c :: p) []
      simp only [List.append_nil] at this
      simp [containsChars, this]
  | cons c a ih =>
    simp [containsChars, ih]

theorem startsWithChars_decomp {p s : List Char} (h : startsWithChars p s = true) :
    ∃ t, s = p ++ t := by
  induction p generalizing s with
  | nil => exact ⟨s, rfl⟩
  | cons c p ih =>
    cases s with
    | nil => simp [startsWithChars] at h
    | cons d s =>
      simp only [startsWithChars, Bool.and_eq_true, beq_iff_eq] at h
      obtain ⟨rfl, h2⟩ := h
      obtain ⟨t, rfl⟩ := ih h2
      exact ⟨t, rfl⟩

theorem containsChars_decomp {p s : List Char} (h : containsChars p s = true) :
    ∃ a b, s = a ++ p ++ b := by
  induction s with
  | nil =>
    simp only [containsChars, List.isEmpty_iff] at h
    exact ⟨[], [], by simp [h]⟩
  | cons c s ih =>
    simp only [containsChars, Bool.or_eq_true] at h
    rcases h with h | h
    · obtain ⟨t, ht⟩ := startsWithChars_decomp h
      exact ⟨[], t, by simp [ht]⟩
    · obtain ⟨a, b, rfl⟩ := ih h
      exact ⟨c :: a, b, rfl⟩

theorem first_dot : ∀ (s t a b : List Char), '.' ∉ s → '.' ∉ t →
    s ++ '.' :: a = t ++ '.' :: b → s = t ∧ a = b := by
  intro s
  induction s with
  | nil =>
    intro t a b hs ht h
    cases t with
    | nil => simpa using h
    | cons d t =>
      exfalso
      apply ht
      simp only [List.nil_append, List.cons_append, List.cons.injEq] at h
      rw [← h.1]
      exact List.mem_cons_self _ _
  | cons c s ih =>
    intro t a b hs ht h
    cases t with
    | nil =>
      exfalso
      apply hs
      simp only [List.cons_append, List.nil_append, List.cons.injEq] at h
      rw [h.1]
      exact List.mem_cons_self _ _
    | cons d t =>
      simp only [List.cons_append, List.cons.injEq] at h
      obtain ⟨rfl, h2⟩ := h
      have hs' : '.' ∉ s := fun hm => hs (List.mem_cons_of_mem _ hm)
      have ht' : '.' ∉ t := fun hm => ht (List.mem_cons_of_mem _ hm)
      obtain ⟨rfl, hab⟩ := ih t a b hs' ht' h2
      exact ⟨rfl, hab⟩

theorem key_not_in_value {P : List Char} (hP : '.' ∉ P) :
    containsChars ".key".data (P ++ ".value".data) = false := by
  apply Bool.eq_false_iff.mpr
  intro hc
  obtain ⟨a, b, hab⟩ := containsChars_decomp hc
  have hcount : List.count '.' (P ++ ".value".data)
      = List.count '.' (a ++ ".key".data ++ b) := by rw [← hab]
  rw [List.count_append, List.count_append, List.count_append] at hcount
  have hP0 : List.count '.' P = 0 := List.count_eq_zero.mpr hP
  have hv1 : List.count '.' ".value".data = 1 := by decide
  have hk1 : List.count '.' ".key".data = 1 := by decide
  have ha0 : List.count '.' a = 0 := by omega
  have ha : '.' ∉ a := List.count_eq_zero.mp ha0
  rw [show (".key".data : List Char) = '.' :: ['k', 'e', 'y'] from rfl,
      show (".value".data : List Char) = '.' :: ['v', 'a', 'l', 'u', 'e'] from rfl] at hab
  rw [List.append_assoc, List.cons_append] at hab
  obtain ⟨-, habs⟩ := first_dot P a ['v', 'a', 'l', 'u', 'e'] (['k', 'e', 'y'] ++ b) hP ha hab
  simp at habs

theorem drop_len_add {α : Type} (l₁ l₂ : List α) (n : Nat) :
    (l₁ ++ l₂).drop (l₁.length + n) = l₂.drop n := by
  induction l₁ with
  | nil => simp
  | cons a l ih => simp [Nat.succ_add, ih]

theorem joinPath_decomp (a b : String) :
    ∃ pfx, (joinPath a b).data = pfx ++ b.data ∧ ('.' ∉ a.data → '.' ∉ pfx) := by
  unfold joinPath
  split
  · exact ⟨a.data, by simp [String.data_append], fun h => h⟩
  · refine ⟨a.data ++ ['/'], by simp [String.data_append], fun h hm => ?_⟩
    rcases List.mem_append.mp hm with hm' | hm'
    · exact h hm'
    · rw [List.mem_singleton] at hm'
      exact absurd hm' (by decide)

theorem count_pred_eq {path dname : String} (hpath : '.' ∉ path.data)
    (hd : '.' ∉ dname.data) {f : FileEnt} {stem : String} (hstem : '.' ∉ stem.data)
    (hf : f.name = stem ++ ".key" ∨ f.name = stem ++ ".value") :
    containsChars ".key".data (joinPath (joinPath path dname) f.name).data
      = decide (f.name.data.drop (f.name.data.length - 4) = ".key".data) := by
  obtain ⟨pfx, hfull, hpfx⟩ := joinPath_decomp (joinPath path dname) f.name
  have hinner : '.' ∉ (joinPath path dname).data := by
    obtain ⟨p0, hp0, hdot0⟩ := joinPath_decomp path dname
    rw [hp0]
    intro hm
    rcases List.mem_append.mp hm with hm' | hm'
    · exact hdot0 hpath hm'
    · exact hd hm'
  have hpfx' : '.' ∉ pfx := hpfx hinner
  rcases hf with hf | hf
  · rw [hf] at hfull ⊢
    rw [hfull, String.data_append, ← List.append_assoc]
    rw [containsChars_append_self]
    have hlen : (stem.data ++ ".key".data).length - 4 = stem.data.length := by
      simp
    rw [hlen, List.drop_left]
    simp
  · rw [hf] at hfull ⊢
    rw [hfull, String.data_append, ← List.append_assoc]
    have hP : '.' ∉ pfx ++ stem.data := by
      intro hm
      rcases List.mem_append.mp hm with hm' | hm'
      · exact hpfx' hm'
      · exact hstem hm'
    rw [key_not_in_value hP]
    have hlen : (stem.data ++ ".value".data).length - 4 = stem.data.length + 2 := by
      simp
    rw [hlen, drop_len_add]
    decide

end KV

namespace KV

/-- C5 counterexample: a file named `x.keyz` — whose name does not end in
`.key` — is counted by the recovery walk, because the code tests whether
the full path *contains* `".key"` rather than whether the file name ends
with it; open therefore reports size 1 where the spec's ends-with count
is 0. -/
theorem open_counts_substring_not_suffix :
    (kvNew "root" [RootEntry.dir "abcdefghij" [⟨"x.keyz", "c"⟩]]).size = 1 ∧
    specCountKeyRecords [RootEntry.dir "abcdefghij" [⟨"x.keyz", "c"⟩]] = 0 := by
  refine ⟨by decide, by decide⟩

/-- C5 (amended): the recovery walk counts the files whose full joined
path contains `".key"` as a substring; on store-generated trees — root
path and shard names free of `'.'`, entry files named `stem.key` /
`stem.value` with dot-free stems (hex digests) — this equals the spec's
count of files whose name ends in `.key`, so reopening after N distinct
inserts yields size N. -/
theorem open_size_counts_key_records {path : String} {fs : List RootEntry}
    (hpath : '.' ∉ path.data)
    (hdirs : ∀ e ∈ fs, ∃ n files, e = RootEntry.dir n files ∧ '.' ∉ n.data ∧
      ∀ f ∈ files, ∃ stem, '.' ∉ stem.data ∧
        (f.name = stem ++ ".key" ∨ f.name = stem ++ ".value")) :
    (kvNew path fs).size = specCountKeyRecords fs := by
  have hcount : countKeyFiles path fs = specCountKeyRecords fs := by
    induction fs with
    | nil => rfl
    | cons e rest ih =>
      have ih' := ih fun x hx => hdirs x (List.mem_cons_of_mem e hx)
      obtain ⟨n, files, rfl, hdot, hfiles⟩ := hdirs e (List.mem_cons_self e rest)
      simp only [countKeyFiles, specCountKeyRecords]
      rw [ih']
      congr 1
      congr 1
      apply List.filter_congr
      intro f hf
      obtain ⟨stem, hstem, hform⟩ := hfiles f hf
      exact count_pred_eq hpath hdot hstem hform
  cases fs with
  | nil => rfl
  | cons e rest =>
    rw [kvNew, if_neg (by simp)]
    exact hcount

/-- Witness for the amended C5 on a store-generated one-entry tree. -/
theorem open_size_counts_key_records_witness :
    (kvNew "root" [RootEntry.dir (first10 hashA)
        [⟨keyFileName hashA, "k"⟩, ⟨valueFileName hashA, "v"⟩]]).size
      = specCountKeyRecords [RootEntry.dir (first10 hashA)
        [⟨keyFileName hashA, "k"⟩, ⟨valueFileName hashA, "v"⟩]] := by
  apply open_size_counts_key_records (by decide)
  intro e he
  rw [List.mem_singleton] at he
  subst he
  refine ⟨first10 hashA, _, rfl, by decide, ?_⟩
  intro f hf
  rcases List.mem_cons.mp hf with rfl | hf'
  · exact ⟨hashA, by decide, Or.inl rfl⟩
  · rw [List.mem_singleton] at hf'
    subst hf'
    exact ⟨hashA, by decide, Or.inr rfl⟩

end KV
